import Mathlib

/-!
Verification of the dom-search-spa backend against its specification.

The definitions below are a shallow embedding of the Python sources
(`backend/chunker.py`, `backend/vector_store.py`, `backend/main.py`,
`backend/models.py`).  External collaborators (the BERT tokenizer, the
sentence-transformer embedding model, the Pinecone index, the HTTP fetch)
are modelled as function parameters: the claims under verification only
concern the pipeline logic around them.
-/

namespace DomSearch

/-- A text block extracted from the page DOM (`html_parser.HTMLChunk`). -/
structure HTMLChunk where
  text : String
  html : String
  dom_path : String
  position : Nat
deriving DecidableEq

/-- A token-bounded chunk dictionary produced by `TextChunker.chunk_content`
(`chunker.py` lines 40-47 and 60-67). -/
structure Chunk where
  content : String
  html : String
  dom_path : String
  position : Nat
  token_count : Nat
  chunk_index : Nat
deriving DecidableEq

/-- The token-window loop of `TextChunker.chunk_content` (`chunker.py` lines
50-71), abstracted to window boundaries over token indices: from `start`,
while `start < T`, emit the window `(start, min (start + maxT) T)` and
continue from `end - ov` unless the window already reached `T`, in which
case continue from `end = T` (which exits the loop).  `fuel` bounds the
number of iterations so the definition is total; `none` means the fuel ran
out before the loop finished. -/
def windowsAux (maxT ov T : Nat) : Nat → Nat → Option (List (Nat × Nat))
  | 0, start => if start < T then none else some []
  | fuel + 1, start =>
    if start < T then
      (windowsAux maxT ov T fuel
          (if min (start + maxT) T < T then min (start + maxT) T - ov
           else min (start + maxT) T)).map
        (fun ws => (start, min (start + maxT) T) :: ws)
    else some []

/-- The chunk record built for one window of the loop body
(`chunker.py` lines 54-67): the window's tokens are `tokens[start:end]`,
decoded back to text, with the non-content fields copied from the parent
block and `chunk_index` the running window counter. -/
def windowChunk (decode : List Nat → String) (hc : HTMLChunk) (tokens : List Nat)
    (idx : Nat) (w : Nat × Nat) : Chunk :=
  let chunkTokens := (tokens.drop w.1).take (w.2 - w.1)
  { content := decode chunkTokens
    html := hc.html
    dom_path := hc.dom_path
    position := hc.position
    token_count := chunkTokens.length
    chunk_index := idx }

/-- `TextChunker.chunk_content` restricted to a single HTML block
(`chunker.py` lines 32-71): tokenize the block's text; if it fits in
`maxT` tokens emit a single chunk carrying the original text verbatim,
otherwise run the overlapping-window loop.  The loop gets fuel equal to
the token count, which suffices whenever `ov < maxT`. -/
def chunkBlock (encode : String → List Nat) (decode : List Nat → String)
    (maxT ov : Nat) (hc : HTMLChunk) : Option (List Chunk) :=
  let tokens := encode hc.text
  if tokens.length ≤ maxT then
    some [{ content := hc.text
            html := hc.html
            dom_path := hc.dom_path
            position := hc.position
            token_count := tokens.length
            chunk_index := 0 }]
  else
    (windowsAux maxT ov tokens.length tokens.length 0).map fun ws =>
      ws.enum.map fun p => windowChunk decode hc tokens p.1 p.2

/-- `TextChunker.chunk_content` over the whole block list (`chunker.py`
lines 30-73): the per-block chunks are appended in block order. -/
def chunk_content (encode : String → List Nat) (decode : List Nat → String)
    (maxT ov : Nat) (blocks : List HTMLChunk) : Option (List Chunk) :=
  (blocks.mapM (chunkBlock encode decode maxT ov)).map List.flatten

/-- Python's `round(x, 4)` at integer granularity: round half to even.
The source rounds binary floats; on this rational model ties are exact
halves at the 4th decimal. -/
def roundHalfEven (q : ℚ) : ℤ :=
  if q - ⌊q⌋ < 1/2 then ⌊q⌋
  else if 1/2 < q - ⌊q⌋ then ⌊q⌋ + 1
  else if ⌊q⌋ % 2 = 0 then ⌊q⌋ else ⌊q⌋ + 1

/-- Python's `round(x, 4)`: round to 4 decimal places. -/
def round4 (q : ℚ) : ℚ := (roundHalfEven (q * 10000) : ℚ) / 10000

/-- Python's `int(x)`: truncation toward zero. -/
def truncInt (q : ℚ) : ℤ := if 0 ≤ q then ⌊q⌋ else ⌈q⌉

/-- A raw match returned by the index query, with its cosine-similarity
score and the metadata stored at indexing time (`vector_store.py`
lines 86-92 and 135). -/
structure Match where
  score : ℚ
  content : String
  html : String
  dom_path : String
  url : String
deriving DecidableEq

/-- The formatted result dictionary built by `VectorStore.search`
(`vector_store.py` lines 139-146). -/
structure FormattedResult where
  score : ℚ
  percentage : ℤ
  dom_path : String
  chunk_text : String
  chunk_html : String
  url : String
deriving DecidableEq

/-- Result formatting in `VectorStore.search` (`vector_store.py` lines
134-146): the raw cosine score is clamped from above to `1.0`, the stored
score is that value rounded to 4 decimals, and the percentage is
`min(int(score * 100), 100)` computed from the unrounded clamped score. -/
def formatMatch (m : Match) : FormattedResult :=
  let score := min m.score 1
  { score := round4 score
    percentage := min (truncInt (score * 100)) 100
    dom_path := m.dom_path
    chunk_text := m.content
    chunk_html := m.html
    url := m.url }

/-- The result list of `VectorStore.search`: every raw match of the index
query, formatted in order. -/
def searchFormat (ms : List Match) : List FormattedResult :=
  ms.map formatMatch

/-- The arguments `VectorStore` passes to `self.index.query`
(`vector_store.py` lines 126-131 and 157-162). -/
structure IndexQuery where
  vector : List ℚ
  filterUrl : Option String
  topK : Nat
  includeMetadata : Bool
deriving DecidableEq

/-- The probe query issued by `VectorStore.url_exists` (`vector_store.py`
lines 157-162): a zero vector of the embedding dimension, an equality
filter on the url, `top_k = 1`, no metadata. -/
def urlExistsQuery (dim : Nat) (url : String) : IndexQuery :=
  { vector := List.replicate dim 0
    filterUrl := some url
    topK := 1
    includeMetadata := false }

/-- `VectorStore.url_exists` (`vector_store.py` lines 150-165), with the
external index call abstracted as `runQuery`: issue the zero-vector probe
and report whether it returned any match; any error from the index is
swallowed and reported as `false`. -/
def url_exists {α : Type} (runQuery : IndexQuery → Except String (List α))
    (dim : Nat) (url : String) : Bool :=
  match runQuery (urlExistsQuery dim url) with
  | Except.ok results => decide (0 < results.length)
  | Except.error _ => false

/-- Python's `url.rstrip('/')`: drop every trailing slash. -/
def rstripSlash (s : String) : String :=
  String.mk ((s.toList.reverse.dropWhile (fun c => c == '/')).reverse)

/-- The primary-plus-fallback query policy of the search endpoint
(`main.py` lines 156-171): keep the primary URL-filtered matches if there
are any; only when there are none, run the broad query and retain the
broad matches whose trailing-slash-stripped url equals the normalized
URL.  The boolean records whether the fallback (broad query) ran. -/
def searchWithFallback (primary broad : List FormattedResult)
    (normalizedUrl : String) : List FormattedResult × Bool :=
  if primary.isEmpty then
    (broad.filter (fun r => rstripSlash r.url == normalizedUrl), true)
  else (primary, false)

/-- The whitespace class of Python's `str.split()` (modelled for the
ASCII whitespace characters; the source also treats the rarer Unicode
whitespace code points the same way). -/
def isPySpace (c : Char) : Bool :=
  c == ' ' || c == '\t' || c == '\n' || c == '\r' || c == '\x0b' || c == '\x0c'

/-- Python's `str.split()` on a character list: the maximal runs of
non-whitespace characters, in order.  `acc` holds the current run,
reversed. -/
def splitWs : List Char → List Char → List (List Char)
  | [], acc => if acc.isEmpty then [] else [acc.reverse]
  | c :: cs, acc =>
    if isPySpace c then
      if acc.isEmpty then splitWs cs [] else acc.reverse :: splitWs cs []
    else splitWs cs (c :: acc)

/-- The content signature used for deduplication (`main.py` line 182):
`" ".join(text.split())`, i.e. the text with every whitespace run
collapsed to a single space and outer whitespace removed. -/
def contentSignature (s : String) : String :=
  String.mk (List.intercalate [' '] (splitWs s.toList []))

/-- The signature of one candidate result. -/
def sigOf (r : FormattedResult) : String := contentSignature r.chunk_text

/-- The deduplication loop of the search endpoint (`main.py` lines
176-190): walk the candidates in order, keep a candidate iff its
signature has not been seen, record the signature of every kept
candidate, and stop as soon as 10 results are collected. -/
def dedupLoop : List FormattedResult → List String → List FormattedResult →
    List FormattedResult
  | [], _, results => results
  | r :: rest, seen, results =>
    if sigOf r ∈ seen then
      if 10 ≤ results.length then results else dedupLoop rest seen results
    else
      if 10 ≤ (results ++ [r]).length then results ++ [r]
      else dedupLoop rest (sigOf r :: seen) (results ++ [r])

/-- Deduplication of a candidate list, starting from an empty seen-set and
an empty result list. -/
def dedup (raw : List FormattedResult) : List FormattedResult :=
  dedupLoop raw [] []

/-- An HTTP error response (`fastapi.HTTPException`). -/
structure HttpError where
  status : Nat
  detail : String
deriving DecidableEq

/-- `models.SearchResult` (`models.py` lines 11-17); the extra `url` key of
the formatted dictionary is dropped by the pydantic constructor. -/
structure SearchResultM where
  score : ℚ
  percentage : ℤ
  dom_path : String
  chunk_text : String
  chunk_html : String
deriving DecidableEq

/-- `models.SearchResponse` (`models.py` lines 20-24). -/
structure SearchResponseM where
  results : List SearchResultM
  total_chunks : Nat
  query : String
deriving DecidableEq

/-- `SearchResult(**r)`: the response entry built from a formatted match. -/
def toSearchResult (r : FormattedResult) : SearchResultM :=
  { score := r.score
    percentage := r.percentage
    dom_path := r.dom_path
    chunk_text := r.chunk_text
    chunk_html := r.chunk_html }

/-- Outcome of the guardrail checks at the top of the search endpoint. -/
inductive Validation
  | invalidUrl
  | tooLong
  | tooShort
  | ok
deriving DecidableEq

/-- The guardrails of the search endpoint (`main.py` lines 93-104), in
source order: the URL is validated first, then a query longer than 200
characters is rejected, then a query shorter than 2 characters.
`urlValid` abstracts the external `validators.url` check. -/
def validateRequest (urlValid : Bool) (query : String) : Validation :=
  if !urlValid then Validation.invalidUrl
  else if 200 < query.length then Validation.tooLong
  else if query.length < 2 then Validation.tooShort
  else Validation.ok

/-- The search endpoint (`main.py` lines 93-204) with the external
collaborators abstracted as parameters: `urlValid` is the
`validators.url` verdict, `htmlChunks` the fetched-and-extracted text
blocks, `alreadyIndexed` the `url_exists` verdict, and
`primary`/`broad` the outcomes of the filtered and unfiltered index
queries.  The response cache and the pydantic range validation of the
response model are elided.  The `none` branch of `chunk_content` is a
fuel artifact of the model; it is unreachable for the deployed
configuration `max_tokens = 500 > 50 = overlap_tokens`.  The boolean in
the successful result records whether the indexing step ran. -/
def searchHandler (urlValid : Bool) (url query : String)
    (encode : String → List Nat) (decode : List Nat → String)
    (htmlChunks : List HTMLChunk) (alreadyIndexed : Bool)
    (primary broad : List FormattedResult) :
    Except HttpError (SearchResponseM × Bool) :=
  match validateRequest urlValid query with
  | Validation.invalidUrl => Except.error ⟨400, "Invalid URL format"⟩
  | Validation.tooLong => Except.error ⟨400, "Query too long (max 200 chars)"⟩
  | Validation.tooShort => Except.error ⟨400, "Query too short (min 2 chars)"⟩
  | Validation.ok =>
    if htmlChunks.isEmpty then
      Except.error ⟨422, "No content found on the page. Please try a different URL."⟩
    else
      match chunk_content encode decode 500 50 htmlChunks with
      | none => Except.error ⟨500, "Internal server error"⟩
      | some textChunks =>
        let normalizedUrl := rstripSlash url
        let rawResults := (searchWithFallback primary broad normalizedUrl).1
        Except.ok ({ results := (dedup rawResults).map toSearchResult
                     total_chunks := textChunks.length
                     query := query }, !alreadyIndexed)

/-- A candidate result with the given url and content, used as concrete
input in scenario conjuncts and witnesses. -/
def sampleResult (url text : String) : FormattedResult :=
  { score := 0, percentage := 0, dom_path := "", chunk_text := text,
    chunk_html := "", url := url }

/-- Eleven candidates with pairwise distinct content signatures. -/
def elevenResults : List FormattedResult :=
  [sampleResult "" "a1", sampleResult "" "b2", sampleResult "" "c3",
   sampleResult "" "d4", sampleResult "" "e5", sampleResult "" "f6",
   sampleResult "" "g7", sampleResult "" "h8", sampleResult "" "i9",
   sampleResult "" "j10", sampleResult "" "k11"]

lemma windowsAux_stop (maxT ov T fuel start : Nat) (h : ¬ start < T) :
    windowsAux maxT ov T fuel start = some [] := by
  cases fuel <;> simp [windowsAux, h]

/-- Full behaviour of the window loop under the forward-progress
precondition `ov < maxT`: with fuel at least `T - start` the loop
finishes, its windows are non-empty, start at `start`, end at `T`, stay
inside `[0, T]` with width at most `maxT`, cover `[start, T)`, each
window but the last has width exactly `maxT` and hands the next window a
start exactly `ov` tokens before its own end, and the number of windows
is the ceiling of `(T - start - ov) / (maxT - ov)`. -/
lemma windowsAux_spec (maxT ov : Nat) (hov : ov < maxT) (T : Nat) :
    ∀ fuel start, start < T → T ≤ start + fuel →
    ∃ ws, windowsAux maxT ov T fuel start = some ws ∧
      ws ≠ [] ∧
      ws.head? = some (start, min (start + maxT) T) ∧
      ws.getLast?.map Prod.snd = some T ∧
      (∀ w ∈ ws, w.1 < w.2 ∧ w.2 ≤ T ∧ w.2 - w.1 ≤ maxT) ∧
      (∀ i, start ≤ i → i < T → ∃ w ∈ ws, w.1 ≤ i ∧ i < w.2) ∧
      ws.Chain' (fun a b => a.2 = a.1 + maxT ∧ b.1 + ov = a.2 ∧ a.1 < b.1 ∧ a.2 < b.2) ∧
      ws.length ≤ fuel ∧
      (ov + start < T →
        ws.length = (T - start - ov + (maxT - ov) - 1) / (maxT - ov)) := by
  intro fuel
  induction fuel with
  | zero => intro start h1 h2; omega
  | succ f ih =>
    intro start h1 h2
    have hs : 0 < maxT - ov := by omega
    by_cases hc : start + maxT < T
    · -- a full window of width maxT that does not reach T yet
      have hmin : min (start + maxT) T = start + maxT := min_eq_left (le_of_lt hc)
      obtain ⟨ws', hws', hne', hhead', hlast', hbnd', hcov', hchain', hlen', hfml'⟩ :=
        ih (start + maxT - ov) (by omega) (by omega)
      refine ⟨(start, start + maxT) :: ws', ?_, by simp, by simp [hmin], ?_, ?_, ?_, ?_,
        by simpa using hlen', ?_⟩
      · simp only [windowsAux, if_pos h1, hmin, if_pos hc]
        rw [hws']
        rfl
      · obtain ⟨b, l, rfl⟩ := List.exists_cons_of_ne_nil hne'
        rw [List.getLast?_cons_cons]
        exact hlast'
      · intro w hw
        rcases List.mem_cons.mp hw with h | h
        · subst h; refine ⟨by omega, by omega, by omega⟩
        · exact hbnd' w h
      · intro i hi1 hi2
        by_cases hie : i < start + maxT
        · exact ⟨(start, start + maxT), List.mem_cons_self _ _, hi1, hie⟩
        · obtain ⟨w, hw, hw1, hw2⟩ := hcov' i (by omega) hi2
          exact ⟨w, List.mem_cons_of_mem _ hw, hw1, hw2⟩
      · rw [List.chain'_cons']
        refine ⟨?_, hchain'⟩
        intro b hb
        rw [hhead'] at hb
        simp only [Option.mem_def, Option.some.injEq] at hb
        subst hb
        refine ⟨rfl, by omega, by omega, lt_min (by omega) hc⟩
      · intro hovs
        have e2 : T - (start + maxT - ov) - ov + (maxT - ov) - 1 = T - start - ov - 1 := by
          omega
        have e3 : T - start - ov + (maxT - ov) - 1 = (T - start - ov - 1) + (maxT - ov) := by
          omega
        rw [List.length_cons, hfml' (by omega), e2, e3, Nat.add_div_right _ hs]
    · -- the final window: it ends at T and the loop stops
      have hmin : min (start + maxT) T = T := min_eq_right (by omega)
      refine ⟨[(start, T)], ?_, by simp, by simp [hmin], by simp, ?_, ?_,
        List.chain'_singleton _, by simp, ?_⟩
      · have hnext : windowsAux maxT ov T f T = some [] :=
          windowsAux_stop maxT ov T f T (lt_irrefl T)
        simp only [windowsAux, if_pos h1, hmin, if_neg (lt_irrefl T), hnext,
          Option.map_some']
      · intro w hw
        simp only [List.mem_singleton] at hw
        subst hw
        exact ⟨h1, le_refl T, by omega⟩
      · intro i hi1 hi2
        exact ⟨(start, T), List.mem_singleton_self _, hi1, hi2⟩
      · intro hovs
        have e3 : T - start - ov + (maxT - ov) - 1 = (T - start - ov - 1) + (maxT - ov) := by
          omega
        rw [List.length_singleton, e3, Nat.add_div_right _ hs,
          Nat.div_eq_of_lt (by omega : T - start - ov - 1 < maxT - ov)]

/-- C1: for a block whose tokenized length `T` exceeds `max_tokens` (with
`overlap_tokens < max_tokens`), the windowing loop covers every token at
least once, consecutive windows share exactly `overlap_tokens` token
indices, the number of windows is `ceil((T - ov) / (maxT - ov))`, the
emitted chunks are exactly the decoded window slices in order, and the
520-token block with `maxT = 500`, `ov = 50` yields the two windows
`[0:500]` and `[450:520]`. -/
theorem chunk_windows_correct (encode : String → List Nat) (decode : List Nat → String)
    (maxT ov : Nat) (hc : HTMLChunk) (hov : ov < maxT)
    (hT : maxT < (encode hc.text).length) :
    ∃ ws : List (Nat × Nat),
      windowsAux maxT ov (encode hc.text).length (encode hc.text).length 0 = some ws ∧
      chunkBlock encode decode maxT ov hc =
        some (ws.enum.map fun p => windowChunk decode hc (encode hc.text) p.1 p.2) ∧
      (∀ i, i < (encode hc.text).length → ∃ w ∈ ws, w.1 ≤ i ∧ i < w.2) ∧
      ws.Chain' (fun a b => max a.1 b.1 ≤ min a.2 b.2 ∧ min a.2 b.2 - max a.1 b.1 = ov) ∧
      ws.length =
        ((encode hc.text).length - ov + (maxT - ov) - 1) / (maxT - ov) ∧
      windowsAux 500 50 520 520 0 = some [(0, 500), (450, 520)] := by
  obtain ⟨ws, hws, hne, hhead, hlast, hbnd, hcov, hchain, hlen, hfml⟩ :=
    windowsAux_spec maxT ov hov (encode hc.text).length (encode hc.text).length 0
      (by omega) (by omega)
  refine ⟨ws, hws, ?_, ?_, ?_, ?_, by decide⟩
  · simp only [chunkBlock]
    rw [if_neg (by omega)]
    rw [hws]
    rfl
  · intro i hi
    exact hcov i (Nat.zero_le i) hi
  · exact hchain.imp (fun a b hab => by omega)
  · simpa using hfml (by omega)

set_option maxRecDepth 4000 in
/-- Witness for C1 at a 520-token block with a 500-token window and
50-token overlap. -/
theorem chunk_windows_correct_witness :
    ∃ ws : List (Nat × Nat),
      windowsAux 500 50 520 520 0 = some ws ∧
      chunkBlock (fun _ => List.range 520) (fun _ => "") 500 50 ⟨"", "", "", 0⟩ =
        some (ws.enum.map fun p =>
          windowChunk (fun _ => "") ⟨"", "", "", 0⟩ (List.range 520) p.1 p.2) ∧
      (∀ i, i < 520 → ∃ w ∈ ws, w.1 ≤ i ∧ i < w.2) ∧
      ws.Chain' (fun a b => max a.1 b.1 ≤ min a.2 b.2 ∧ min a.2 b.2 - max a.1 b.1 = 50) ∧
      ws.length = (520 - 50 + (500 - 50) - 1) / (500 - 50) ∧
      windowsAux 500 50 520 520 0 = some [(0, 500), (450, 520)] :=
  chunk_windows_correct (fun _ => List.range 520) (fun _ => "") 500 50 ⟨"", "", "", 0⟩
    (by decide) (by simp)

/-- C6: under the precondition `overlap_tokens < max_tokens` the windowing
loop terminates on every block (fuel equal to the token count is never
exhausted), every window stays within the token range, each window hands
the next one a start exactly `max_tokens - overlap_tokens` further
forward, the last window ends at `T`, and the total number of windows is
bounded by `T`. -/
theorem chunk_loop_terminates (maxT ov : Nat) (hov : ov < maxT) (T : Nat) :
    ∃ ws, windowsAux maxT ov T T 0 = some ws ∧
      ws.length ≤ T ∧
      (∀ w ∈ ws, w.2 ≤ T) ∧
      ws.Chain' (fun a b => b.1 = a.1 + (maxT - ov)) ∧
      (0 < T → ws.getLast?.map Prod.snd = some T) := by
  by_cases hT : 0 < T
  · obtain ⟨ws, hws, _, _, hlast, hbnd, _, hchain, hlen, _⟩ :=
      windowsAux_spec maxT ov hov T T 0 hT (by omega)
    exact ⟨ws, hws, by simpa using hlen, fun w hw => (hbnd w hw).2.1,
      hchain.imp (fun a b hab => by omega), fun _ => hlast⟩
  · refine ⟨[], ?_, by simp, by simp, by simp, by simp [show T = 0 by omega]⟩
    exact windowsAux_stop _ _ _ _ _ (by omega)

/-- Witness for C6 at `maxT = 500`, `ov = 50`, a 7-token block. -/
theorem chunk_loop_terminates_witness :
    ∃ ws, windowsAux 500 50 7 7 0 = some ws ∧
      ws.length ≤ 7 ∧
      (∀ w ∈ ws, w.2 ≤ 7) ∧
      ws.Chain' (fun a b => b.1 = a.1 + (500 - 50)) ∧
      (0 < 7 → ws.getLast?.map Prod.snd = some 7) :=
  chunk_loop_terminates 500 50 (by decide) 7

/-- C5: a block whose tokenized length is at most `max_tokens` yields exactly
one chunk, with `chunk_index = 0`, `token_count` the true token length, and
`content` the block's original text verbatim. -/
theorem chunkBlock_single_segment (encode : String → List Nat)
    (decode : List Nat → String) (maxT ov : Nat) (hc : HTMLChunk)
    (h : (encode hc.text).length ≤ maxT) :
    chunkBlock encode decode maxT ov hc =
      some [{ content := hc.text
              html := hc.html
              dom_path := hc.dom_path
              position := hc.position
              token_count := (encode hc.text).length
              chunk_index := 0 }] := by
  simp [chunkBlock, h]

/-- Witness for C5 at a concrete block whose text tokenizes to 3 tokens
with a 500-token window. -/
theorem chunkBlock_single_segment_witness :
    chunkBlock (fun _ => [7, 8, 9]) (fun _ => "") 500 50
        ⟨"a sample block of text", "<p>x</p>", "html > body > p", 4⟩ =
      some [{ content := "a sample block of text"
              html := "<p>x</p>"
              dom_path := "html > body > p"
              position := 4
              token_count := 3
              chunk_index := 0 }] :=
  chunkBlock_single_segment (fun _ => [7, 8, 9]) (fun _ => "") 500 50
    ⟨"a sample block of text", "<p>x</p>", "html > body > p", 4⟩ (by decide)

lemma roundHalfEven_cases (q : ℚ) :
    roundHalfEven q = ⌊q⌋ ∨ roundHalfEven q = ⌊q⌋ + 1 := by
  unfold roundHalfEven
  split
  · exact Or.inl rfl
  · split
    · exact Or.inr rfl
    · split
      · exact Or.inl rfl
      · exact Or.inr rfl

lemma roundHalfEven_nonneg {q : ℚ} (h : 0 ≤ q) : 0 ≤ roundHalfEven q := by
  have h0 : (0 : ℤ) ≤ ⌊q⌋ := Int.floor_nonneg.mpr h
  rcases roundHalfEven_cases q with he | he <;> omega

lemma roundHalfEven_le {q : ℚ} {n : ℤ} (h : q ≤ n) : roundHalfEven q ≤ n := by
  have hfl : ⌊q⌋ ≤ n := by
    have := Int.floor_mono h
    simpa using this
  rcases eq_or_lt_of_le hfl with heq | hlt
  · have hq : q = (n : ℚ) := by
      refine le_antisymm h ?_
      calc (n : ℚ) = ((⌊q⌋ : ℤ) : ℚ) := by rw [heq]
      _ ≤ q := Int.floor_le q
    have : q - ⌊q⌋ < 1/2 := by rw [hq, Int.floor_intCast]; norm_num
    rw [roundHalfEven, if_pos this]
    exact hfl
  · rcases roundHalfEven_cases q with he | he <;> omega

lemma round4_nonneg {q : ℚ} (h : 0 ≤ q) : 0 ≤ round4 q := by
  have h1 : (0 : ℤ) ≤ roundHalfEven (q * 10000) :=
    roundHalfEven_nonneg (by positivity)
  unfold round4
  have h2 : (0 : ℚ) ≤ (roundHalfEven (q * 10000) : ℚ) := by exact_mod_cast h1
  positivity

lemma round4_le_one {q : ℚ} (h : q ≤ 1) : round4 q ≤ 1 := by
  have h1 : q * 10000 ≤ ((10000 : ℤ) : ℚ) := by push_cast; linarith
  have h2 : roundHalfEven (q * 10000) ≤ 10000 := roundHalfEven_le h1
  unfold round4
  rw [div_le_one (by norm_num)]
  exact_mod_cast h2

/-- C2 counterexample: the claim fails as stated.  A raw similarity of
`-1/2` passes through the formatting un-clamped (the code only clamps
from above), so the stored score is negative; and at raw similarity
`0.49999` the 4-decimal rounding of the stored score makes the stored
percentage (49, computed from the unrounded value) differ from
`floor(stored_score * 100)` (50). -/
theorem formatMatch_claim_false :
    (¬ ∀ m : Match, (0 ≤ (formatMatch m).score ∧ (formatMatch m).score ≤ 1) ∧
        (formatMatch m).percentage = ⌊(formatMatch m).score * 100⌋) ∧
    (formatMatch ⟨-1/2, "", "", "", ""⟩).score < 0 ∧
    (formatMatch ⟨-1/2, "", "", "", ""⟩).percentage = -50 ∧
    (formatMatch ⟨49999/100000, "", "", "", ""⟩).percentage ≠
      ⌊(formatMatch ⟨49999/100000, "", "", "", ""⟩).score * 100⌋ := by
  have hsc : (formatMatch ⟨-1/2, "", "", "", ""⟩).score = -1/2 := by
    show round4 (min (-1/2 : ℚ) 1) = -1/2
    rw [show min (-1/2 : ℚ) 1 = -1/2 by norm_num]
    unfold round4 roundHalfEven
    norm_num
  have hpc : (formatMatch ⟨-1/2, "", "", "", ""⟩).percentage = -50 := by
    show min (truncInt (min (-1/2 : ℚ) 1 * 100)) 100 = -50
    rw [show min (-1/2 : ℚ) 1 = -1/2 by norm_num]
    unfold truncInt
    rw [show ((-1/2 : ℚ) * 100) = ((-50 : ℤ) : ℚ) by norm_num]
    rw [if_neg (by norm_num), Int.ceil_intCast]
    norm_num
  have hsc2 : (formatMatch ⟨49999/100000, "", "", "", ""⟩).score = 1/2 := by
    show round4 (min (49999/100000 : ℚ) 1) = 1/2
    rw [show min (49999/100000 : ℚ) 1 = 49999/100000 by norm_num]
    unfold round4 roundHalfEven
    norm_num
  have hpc2 : (formatMatch ⟨49999/100000, "", "", "", ""⟩).percentage = 49 := by
    show min (truncInt (min (49999/100000 : ℚ) 1 * 100)) 100 = 49
    rw [show min (49999/100000 : ℚ) 1 = 49999/100000 by norm_num]
    unfold truncInt
    norm_num
  refine ⟨?_, by rw [hsc]; norm_num, hpc, ?_⟩
  · intro h
    have h1 := (h ⟨-1/2, "", "", "", ""⟩).1.1
    rw [hsc] at h1
    norm_num at h1
  · rw [hpc2, hsc2]
    norm_num

/-- C2 amended: every stored score is clamped from above to 1 (but a
negative raw similarity passes through un-clamped); whenever the raw
similarity is nonnegative the stored score lies in `[0, 1]` and the
stored percentage equals `floor(c * 100)` for `c = min(raw, 1)`, the
clamped similarity before the 4-decimal rounding of the stored score. -/
theorem score_clamp_amended (m : Match) :
    (formatMatch m).score ≤ 1 ∧
    (formatMatch m).score = round4 (min m.score 1) ∧
    (∀ ms : List Match, ∀ r ∈ searchFormat ms, r.score ≤ 1) ∧
    (0 ≤ m.score →
      0 ≤ (formatMatch m).score ∧
      (formatMatch m).percentage = ⌊min m.score 1 * 100⌋ ∧
      0 ≤ (formatMatch m).percentage ∧ (formatMatch m).percentage ≤ 100) := by
  have hle1 : min m.score 1 ≤ 1 := min_le_right _ _
  refine ⟨round4_le_one hle1, rfl, ?_, ?_⟩
  · intro ms r hr
    obtain ⟨m', _, rfl⟩ := List.mem_map.mp hr
    exact round4_le_one (min_le_right _ _)
  · intro h0
    have hge : (0 : ℚ) ≤ min m.score 1 := le_min h0 (by norm_num)
    have hmul : (0 : ℚ) ≤ min m.score 1 * 100 := by positivity
    have ht : truncInt (min m.score 1 * 100) = ⌊min m.score 1 * 100⌋ := if_pos hmul
    have hf : ⌊min m.score 1 * 100⌋ ≤ 100 := by
      have hb : min m.score 1 * 100 ≤ ((100 : ℤ) : ℚ) := by push_cast; linarith
      have := Int.floor_mono hb
      simpa using this
    have hp : (formatMatch m).percentage = ⌊min m.score 1 * 100⌋ := by
      show min (truncInt (min m.score 1 * 100)) 100 = _
      rw [ht, min_eq_left hf]
    refine ⟨round4_nonneg hge, hp, ?_, ?_⟩
    · rw [hp]; exact Int.floor_nonneg.mpr hmul
    · rw [hp]; exact hf

/-- Witness for the amended C2 at a concrete raw similarity of `3/4`. -/
theorem score_clamp_amended_witness :
    0 ≤ (formatMatch ⟨3/4, "c", "h", "d", "u"⟩).score ∧
    (formatMatch ⟨3/4, "c", "h", "d", "u"⟩).percentage = ⌊min (3/4 : ℚ) 1 * 100⌋ ∧
    0 ≤ (formatMatch ⟨3/4, "c", "h", "d", "u"⟩).percentage ∧
    (formatMatch ⟨3/4, "c", "h", "d", "u"⟩).percentage ≤ 100 :=
  (score_clamp_amended ⟨3/4, "c", "h", "d", "u"⟩).2.2.2 (by norm_num)

/-- C3: the broad fallback query runs iff the primary URL-filtered query
returned zero matches — never when it returned at least one — and from
the broad matches exactly those whose trailing-slash-stripped url equals
the normalized URL are retained.  In the concrete scenario, a broad
result of three matches of which two carry url `"https://a.com/"`
recovers exactly those two for the normalized URL `"https://a.com"`. -/
theorem fallback_policy (p b : List FormattedResult) (u : String) :
    ((searchWithFallback p b u).2 = true ↔ p = []) ∧
    (p ≠ [] → searchWithFallback p b u = (p, false)) ∧
    (p = [] → searchWithFallback p b u =
      (b.filter (fun r => rstripSlash r.url == u), true)) ∧
    searchWithFallback []
        [sampleResult "https://a.com/" "t1", sampleResult "https://b.com" "t2",
         sampleResult "https://a.com/" "t3"] "https://a.com" =
      ([sampleResult "https://a.com/" "t1", sampleResult "https://a.com/" "t3"],
       true) := by
  refine ⟨?_, ?_, ?_, by decide⟩
  · cases p <;> simp [searchWithFallback]
  · cases p <;> simp [searchWithFallback]
  · cases p <;> simp [searchWithFallback]

/-- Witness for C3 at a nonempty primary result list and at the empty one. -/
theorem fallback_policy_witness :
    ((searchWithFallback [sampleResult "https://a.com" "t"] [] "https://a.com").2 =
        true ↔ [sampleResult "https://a.com" "t"] = []) ∧
    ([sampleResult "https://a.com" "t"] ≠ ([] : List FormattedResult) →
      searchWithFallback [sampleResult "https://a.com" "t"] [] "https://a.com" =
        ([sampleResult "https://a.com" "t"], false)) ∧
    ([sampleResult "https://a.com" "t"] = ([] : List FormattedResult) →
      searchWithFallback [sampleResult "https://a.com" "t"] [] "https://a.com" =
        ([].filter (fun r => rstripSlash r.url == "https://a.com"), true)) ∧
    searchWithFallback []
        [sampleResult "https://a.com/" "t1", sampleResult "https://b.com" "t2",
         sampleResult "https://a.com/" "t3"] "https://a.com" =
      ([sampleResult "https://a.com/" "t1", sampleResult "https://a.com/" "t3"],
       true) :=
  fallback_policy [sampleResult "https://a.com" "t"] [] "https://a.com"

/-- C8: the URL-existence probe returns true iff the zero-vector,
url-equality-filtered, `top_k = 1` index query returns at least one
match, and swallows any index error into the safe default `false`. -/
theorem url_exists_spec {α : Type} (runQuery : IndexQuery → Except String (List α))
    (dim : Nat) (url : String) :
    urlExistsQuery dim url =
      { vector := List.replicate dim 0, filterUrl := some url, topK := 1,
        includeMetadata := false } ∧
    (url_exists runQuery dim url = true ↔
      ∃ ms, runQuery (urlExistsQuery dim url) = Except.ok ms ∧ 0 < ms.length) ∧
    (∀ e, runQuery (urlExistsQuery dim url) = Except.error e →
      url_exists runQuery dim url = false) := by
  refine ⟨rfl, ?_, ?_⟩
  · unfold url_exists
    cases hq : runQuery (urlExistsQuery dim url) with
    | ok ms =>
      simp only [decide_eq_true_eq]
      constructor
      · intro h
        exact ⟨ms, rfl, h⟩
      · rintro ⟨ms', hms, hlen⟩
        rw [Except.ok.injEq] at hms
        exact hms ▸ hlen
    | error e => simp
  · intro e he
    unfold url_exists
    rw [he]

/-- Witness for C8: an index error is reported as `false`. -/
theorem url_exists_spec_witness :
    url_exists (α := FormattedResult) (fun _ => Except.error "network down")
      384 "https://a.com" = (false : Bool) :=
  (url_exists_spec (α := FormattedResult) (fun _ => Except.error "network down")
    384 "https://a.com").2.2 "network down" rfl

lemma dedupLoop_length : ∀ (rest : List FormattedResult) (seen : List String)
    (results : List FormattedResult), results.length < 10 →
    (dedupLoop rest seen results).length ≤ 10 := by
  intro rest
  induction rest with
  | nil =>
    intro seen results h
    simpa [dedupLoop] using h.le
  | cons r rest ih =>
    intro seen results h
    simp only [dedupLoop]
    by_cases hseen : sigOf r ∈ seen
    · rw [if_pos hseen, if_neg (by omega)]
      exact ih seen results h
    · rw [if_neg hseen]
      by_cases hlen : 10 ≤ (results ++ [r]).length
      · rw [if_pos hlen]
        simp only [List.length_append, List.length_cons, List.length_nil] at hlen ⊢
        omega
      · rw [if_neg hlen]
        refine ih _ _ ?_
        simp only [List.length_append, List.length_cons, List.length_nil] at hlen ⊢
        omega

lemma dedupLoop_sublist : ∀ (rest : List FormattedResult) (seen : List String)
    (results : List FormattedResult),
    List.Sublist (dedupLoop rest seen results) (results ++ rest) := by
  intro rest
  induction rest with
  | nil => intro seen results; simp [dedupLoop]
  | cons r rest ih =>
    intro seen results
    simp only [dedupLoop]
    by_cases hseen : sigOf r ∈ seen
    · rw [if_pos hseen]
      by_cases hlen : 10 ≤ results.length
      · rw [if_pos hlen]
        exact List.sublist_append_left results (r :: rest)
      · rw [if_neg hlen]
        refine (ih seen results).trans (List.Sublist.append_left ?_ results)
        exact List.sublist_cons_self r rest
    · rw [if_neg hseen]
      by_cases hlen : 10 ≤ (results ++ [r]).length
      · rw [if_pos hlen]
        exact List.Sublist.append_left
          (List.Sublist.cons₂ r (List.nil_sublist rest)) results
      · rw [if_neg hlen]
        have h := ih (sigOf r :: seen) (results ++ [r])
        simpa [List.append_assoc] using h

lemma dedup_sublist (raw : List FormattedResult) : List.Sublist (dedup raw) raw := by
  simpa using dedupLoop_sublist raw [] []

lemma seenInv_extend {seen : List String} {results : List FormattedResult}
    {r : FormattedResult}
    (hinv : ∀ s, s ∈ seen ↔ ∃ x ∈ results, sigOf x = s) :
    ∀ s, s ∈ sigOf r :: seen ↔ ∃ x ∈ results ++ [r], sigOf x = s := by
  intro s
  constructor
  · intro hs
    rcases List.mem_cons.mp hs with hs' | hs'
    · exact ⟨r, List.mem_append_right _ (List.mem_singleton_self r), hs'.symm⟩
    · obtain ⟨x, hx, hxs⟩ := (hinv s).mp hs'
      exact ⟨x, List.mem_append_left _ hx, hxs⟩
  · rintro ⟨x, hx, hxs⟩
    rcases List.mem_append.mp hx with hx' | hx'
    · exact List.mem_cons_of_mem _ ((hinv s).mpr ⟨x, hx', hxs⟩)
    · rw [List.mem_singleton] at hx'
      subst hx'
      rw [← hxs]
      exact List.mem_cons_self _ _

lemma dedupLoop_pairwise : ∀ (rest : List FormattedResult) (seen : List String)
    (results : List FormattedResult),
    (∀ s, s ∈ seen ↔ ∃ x ∈ results, sigOf x = s) →
    results.Pairwise (fun a b => sigOf a ≠ sigOf b) →
    (dedupLoop rest seen results).Pairwise (fun a b => sigOf a ≠ sigOf b) := by
  intro rest
  induction rest with
  | nil =>
    intro seen results _ hp
    simpa [dedupLoop] using hp
  | cons r rest ih =>
    intro seen results hinv hp
    simp only [dedupLoop]
    by_cases hseen : sigOf r ∈ seen
    · rw [if_pos hseen]
      by_cases hlen : 10 ≤ results.length
      · rw [if_pos hlen]
        exact hp
      · rw [if_neg hlen]
        exact ih seen results hinv hp
    · rw [if_neg hseen]
      have hnew : (results ++ [r]).Pairwise (fun a b => sigOf a ≠ sigOf b) := by
        refine List.pairwise_append.mpr ⟨hp, List.pairwise_singleton _ _, ?_⟩
        intro a ha b hb
        simp only [List.mem_singleton] at hb
        rw [hb]
        intro he
        exact hseen ((hinv (sigOf r)).mpr ⟨a, ha, he⟩)
      by_cases hlen : 10 ≤ (results ++ [r]).length
      · rw [if_pos hlen]
        exact hnew
      · rw [if_neg hlen]
        exact ih _ _ (seenInv_extend hinv) hnew

lemma dedupLoop_first : ∀ (rest : List FormattedResult) (seen : List String)
    (results : List FormattedResult),
    (∀ s, s ∈ seen ↔ ∃ x ∈ results, sigOf x = s) →
    ∀ x, x ∈ dedupLoop rest seen results →
      x ∈ results ∨
        (List.find? (fun y => sigOf y == sigOf x) rest = some x ∧
          sigOf x ∉ seen) := by
  intro rest
  induction rest with
  | nil =>
    intro seen results _ x hx
    left
    simpa [dedupLoop] using hx
  | cons r rest ih =>
    intro seen results hinv x hx
    simp only [dedupLoop] at hx
    by_cases hseen : sigOf r ∈ seen
    · rw [if_pos hseen] at hx
      by_cases hlen : 10 ≤ results.length
      · rw [if_pos hlen] at hx
        exact Or.inl hx
      · rw [if_neg hlen] at hx
        rcases ih seen results hinv x hx with h | ⟨hfind, hnot⟩
        · exact Or.inl h
        · right
          have hne : sigOf r ≠ sigOf x := fun he => hnot (he ▸ hseen)
          rw [List.find?_cons_of_neg _ (by simpa using hne)]
          exact ⟨hfind, hnot⟩
    · rw [if_neg hseen] at hx
      by_cases hlen : 10 ≤ (results ++ [r]).length
      · rw [if_pos hlen] at hx
        rcases List.mem_append.mp hx with h | h
        · exact Or.inl h
        · simp only [List.mem_singleton] at h
          subst h
          right
          exact ⟨List.find?_cons_of_pos _ (by simp), hseen⟩
      · rw [if_neg hlen] at hx
        rcases ih _ _ (seenInv_extend hinv) x hx with h | ⟨hfind, hnot⟩
        · rcases List.mem_append.mp h with h | h
          · exact Or.inl h
          · simp only [List.mem_singleton] at h
            subst h
            right
            exact ⟨List.find?_cons_of_pos _ (by simp), hseen⟩
        · right
          have hne : sigOf r ≠ sigOf x := by
            intro he
            exact hnot (by rw [← he]; exact List.mem_cons_self _ _)
          rw [List.find?_cons_of_neg _ (by simpa using hne)]
          exact ⟨hfind, fun hc => hnot (List.mem_cons_of_mem _ hc)⟩

/-- C4: the deduplicated result list has pairwise distinct
whitespace-normalized contents, every surviving entry is the first
candidate carrying its signature in incoming order, the list never
exceeds 10 entries, and eleven distinct candidates are cut to exactly
ten. -/
theorem dedup_results_spec : ∀ raw : List FormattedResult,
    (dedup raw).Pairwise (fun a b => sigOf a ≠ sigOf b) ∧
    (∀ x, x ∈ dedup raw →
      List.find? (fun y => sigOf y == sigOf x) raw = some x) ∧
    (dedup raw).length ≤ 10 ∧
    (dedup elevenResults).length = 10 := by
  intro raw
  have hinv0 : ∀ s, s ∈ ([] : List String) ↔
      ∃ x ∈ ([] : List FormattedResult), sigOf x = s := by simp
  refine ⟨dedupLoop_pairwise raw [] [] hinv0 (by simp), ?_,
    dedupLoop_length raw [] [] (by simp), by decide⟩
  intro x hx
  rcases dedupLoop_first raw [] [] hinv0 x hx with h | ⟨hfind, _⟩
  · simp at h
  · exact hfind

/-- Witness for C4: of two candidates whose contents differ only in
whitespace runs, the survivor is the first. -/
theorem dedup_results_spec_witness :
    List.find? (fun y => sigOf y == sigOf (sampleResult "" "x  y"))
        [sampleResult "" "x  y", sampleResult "" "x y"] =
      some (sampleResult "" "x  y") :=
  (dedup_results_spec [sampleResult "" "x  y", sampleResult "" "x y"]).2.1
    (sampleResult "" "x  y") (by decide)

/-- C10: deduplication is an order-preserving filter — the final result
list is a subsequence of the candidate list, so survivors appear in
exactly the relative order in which their candidates arrived. -/
theorem dedup_order_preserving : ∀ raw : List FormattedResult,
    (dedup raw).Sublist raw :=
  dedup_sublist

/-- C7: a query of 2 through 200 characters passes validation; a shorter
or longer query (or a malformed URL) is rejected with a 400 error whose
value is independent of every downstream collaborator — the fetched
page, the tokenizer, the index state and the query results — so the
rejection happens before any fetch, embedding or index work. -/
theorem query_validation_spec (q : String) :
    (validateRequest true q = Validation.ok ↔ 2 ≤ q.length ∧ q.length ≤ 200) ∧
    ((q.length < 2 ∨ 200 < q.length) →
      ∀ (url url' : String) (enc enc' : String → List Nat)
        (dec dec' : List Nat → String) (hcs hcs' : List HTMLChunk)
        (ai ai' : Bool) (p p' b b' : List FormattedResult),
        searchHandler true url q enc dec hcs ai p b =
          searchHandler true url' q enc' dec' hcs' ai' p' b' ∧
        ∃ e, searchHandler true url q enc dec hcs ai p b = Except.error e ∧
          e.status = 400) ∧
    (∀ (url : String) (enc : String → List Nat) (dec : List Nat → String)
      (hcs : List HTMLChunk) (ai : Bool) (p b : List FormattedResult),
      searchHandler false url q enc dec hcs ai p b =
        Except.error ⟨400, "Invalid URL format"⟩) := by
  refine ⟨?_, ?_, ?_⟩
  · unfold validateRequest
    rw [if_neg (by simp)]
    rcases Nat.lt_or_ge 200 q.length with h200 | h200
    · rw [if_pos h200]
      simp only [reduceCtorEq, false_iff]
      omega
    · rw [if_neg (by omega)]
      rcases Nat.lt_or_ge q.length 2 with h2 | h2
      · rw [if_pos h2]
        simp only [reduceCtorEq, false_iff]
        omega
      · rw [if_neg (by omega)]
        simp only [true_iff]
        omega
  · intro hbad url url' enc enc' dec dec' hcs hcs' ai ai' p p' b b'
    rcases Nat.lt_or_ge 200 q.length with h200 | h200
    · have hv : validateRequest true q = Validation.tooLong := by
        unfold validateRequest
        rw [if_neg (by simp), if_pos h200]
      refine ⟨?_, ⟨400, "Query too long (max 200 chars)"⟩, ?_, rfl⟩ <;>
        simp only [searchHandler, hv]
    · have h2 : q.length < 2 := by omega
      have hv : validateRequest true q = Validation.tooShort := by
        unfold validateRequest
        rw [if_neg (by simp), if_neg (by omega), if_pos h2]
      refine ⟨?_, ⟨400, "Query too short (min 2 chars)"⟩, ?_, rfl⟩ <;>
        simp only [searchHandler, hv]
  · intro url enc dec hcs ai p b
    have hv : validateRequest false q = Validation.invalidUrl := by
      unfold validateRequest
      rw [if_pos (by simp)]
    simp only [searchHandler, hv]

/-- Witness for C7 at the one-character query `"a"`, which must be
rejected identically whatever the downstream collaborators return. -/
theorem query_validation_spec_witness :
    searchHandler true "https://a.com" "a" (fun _ => []) (fun _ => "")
        [] false [] [] =
      searchHandler true "https://b.com" "a" (fun _ => [1]) (fun _ => "x")
        [⟨"t", "h", "d", 0⟩] true [] [] ∧
    ∃ e, searchHandler true "https://a.com" "a" (fun _ => []) (fun _ => "")
        [] false [] [] = Except.error e ∧ e.status = 400 :=
  (query_validation_spec "a").2.1 (Or.inl (by decide)) "https://a.com"
    "https://b.com" (fun _ => []) (fun _ => [1]) (fun _ => "") (fun _ => "x")
    [] [⟨"t", "h", "d", 0⟩] false true [] [] [] []

/-- C9: every successful response reports `total_chunks` equal to the
number of chunks produced from the freshly fetched page of this request,
independently of whether the indexing step was skipped and of how many
results the queries returned. -/
theorem total_chunks_spec (v : Bool) (url q : String)
    (enc : String → List Nat) (dec : List Nat → String) (hcs : List HTMLChunk)
    (ai ai' : Bool) (p p' b b' : List FormattedResult)
    (resp resp' : SearchResponseM) (d d' : Bool)
    (h1 : searchHandler v url q enc dec hcs ai p b = Except.ok (resp, d))
    (h2 : searchHandler v url q enc dec hcs ai' p' b' = Except.ok (resp', d')) :
    (∃ tc, chunk_content enc dec 500 50 hcs = some tc ∧
      resp.total_chunks = tc.length) ∧
    resp'.total_chunks = resp.total_chunks ∧ resp.query = q := by
  unfold searchHandler at h1 h2
  cases hv : validateRequest v q <;> rw [hv] at h1 h2
  case invalidUrl => exact absurd h1 (by simp)
  case tooLong => exact absurd h1 (by simp)
  case tooShort => exact absurd h1 (by simp)
  case ok =>
    by_cases hemp : hcs.isEmpty
    · rw [if_pos hemp] at h1
      exact absurd h1 (by simp)
    · rw [if_neg hemp] at h1 h2
      cases hcc : chunk_content enc dec 500 50 hcs <;> rw [hcc] at h1 h2
      · exact absurd h1 (by simp)
      · rename_i tc
        simp only [Except.ok.injEq, Prod.mk.injEq] at h1 h2
        refine ⟨⟨tc, rfl, ?_⟩, ?_, ?_⟩
        · rw [← h1.1]
        · rw [← h1.1, ← h2.1]
        · rw [← h1.1]

/-- Witness for C9: two successful runs for the same fresh page — one
that indexes and finds nothing, one that skips indexing and returns one
match — report the same `total_chunks`, equal to the chunk count of the
fetched page. -/
theorem total_chunks_spec_witness :
    (∃ tc, chunk_content (fun _ => [1]) (fun _ => "") 500 50
        [⟨"some page text", "<p>t</p>", "html > body > p", 0⟩] = some tc ∧
      (⟨[], 1, "ab"⟩ : SearchResponseM).total_chunks = tc.length) ∧
    (⟨[toSearchResult (sampleResult "u" "t")], 1, "ab"⟩ :
        SearchResponseM).total_chunks =
      (⟨[], 1, "ab"⟩ : SearchResponseM).total_chunks ∧
    (⟨[], 1, "ab"⟩ : SearchResponseM).query = "ab" :=
  total_chunks_spec true "u" "ab" (fun _ => [1]) (fun _ => "")
    [⟨"some page text", "<p>t</p>", "html > body > p", 0⟩]
    false true [] [sampleResult "u" "t"] [] []
    ⟨[], 1, "ab"⟩ ⟨[toSearchResult (sampleResult "u" "t")], 1, "ab"⟩ true false
    rfl rfl

end DomSearch
